import Mathlib

/-!
Shallow embedding of the memory-access layer of libunwindstack-ndk
(src/Memory.cpp, namespace unwindstack) and verification of its
specification claims.

Modelling conventions:
* A machine byte is a `Nat` (value of a `uint8_t`); a byte store is a
  `List Nat`.
* `Read(addr, dst, size)` is modelled as a function returning the list of
  bytes copied into `dst`; the C return value (the byte count) is the
  length of that list.
* `uint64_t` arithmetic is modelled on `Nat` with explicit `2 ^ 64`
  comparisons exactly where the source checks overflow
  (`__builtin_add_overflow` and friends).
* Reads that go through the OS (ptrace words, process_vm_readv bulk
  transfers) are parametrised by an abstract result describing what the
  kernel returned, since their outcome is environment state, not program
  state.
-/

set_option autoImplicit false

namespace unwindstack

/-- `MemoryBuffer::Read` (src/Memory.cpp:232).  `raw` is the backing byte
buffer `raw_` whose size is `raw.length` (the member `size_`); returns the
copied bytes: nothing when `addr >= size_`, otherwise
`min(size_ - addr, size)` bytes starting at `addr`. -/
def MemoryBuffer.Read (raw : List Nat) (addr size : Nat) : List Nat :=
  if raw.length ≤ addr then []
  else (raw.drop addr).take (min (raw.length - addr) size)

/-- `MemoryFileAtOffset::Read` (src/Memory.cpp:303): same body as
`MemoryBuffer::Read` over the mapped file window `data_` of size `size_`,
here the byte list `data`. -/
def MemoryFileAtOffset.Read (data : List Nat) (addr size : Nat) : List Nat :=
  if data.length ≤ addr then []
  else (data.drop addr).take (min (data.length - addr) size)

/-!
`PtraceRead` (src/Memory.cpp:119).  `PtraceReadLong` wraps the
`PTRACE_PEEKTEXT` syscall, which either fails or returns one aligned
machine word (`sizeof(long)` is 8 on LP64); its outcome is environment
state, modelled by an abstract word reader
`W : Nat → Option (List Nat)` mapping an aligned address to the word's 8
bytes (`none` when ptrace fails).
-/

/-- The middle loop of `PtraceRead` (src/Memory.cpp:141): read `n` full
words starting at `addr`; stop at the first failed word.  Returns the
bytes copied so far and whether all `n` iterations completed. -/
def ptraceWords (W : Nat → Option (List Nat)) : Nat → Nat → List Nat × Bool
  | _, 0 => ([], true)
  | addr, n + 1 =>
    match W addr with
    | none => ([], false)
    | some w => (w.take 8 ++ (ptraceWords W (addr + 8) n).1, (ptraceWords W (addr + 8) n).2)

/-- `PtraceRead` after the initial alignment handling
(src/Memory.cpp:141): the full-word loop over `bytes / sizeof(long)`
words, then, if every word succeeded, the `left_over = bytes % 8` tail
bytes from one final word. -/
def ptraceBody (W : Nat → Option (List Nat)) (addr bytes : Nat) : List Nat :=
  if (ptraceWords W addr (bytes / 8)).2 then
    if bytes % 8 ≠ 0 then
      match W (addr + 8 * (bytes / 8)) with
      | none => (ptraceWords W addr (bytes / 8)).1
      | some w => (ptraceWords W addr (bytes / 8)).1 ++ w.take (bytes % 8)
    else (ptraceWords W addr (bytes / 8)).1
  else (ptraceWords W addr (bytes / 8)).1

/-- `PtraceRead` (src/Memory.cpp:119): fail on `addr + bytes` overflow of
`uint64_t`; if `addr` is unaligned, read the containing aligned word and
copy the `min(8 - align, bytes)` tail bytes (failing outright, with zero
bytes, if that word read fails), then run the word loop and tail read. -/
def PtraceRead (W : Nat → Option (List Nat)) (addr bytes : Nat) : List Nat :=
  if 2 ^ 64 ≤ addr + bytes then []
  else if addr % 8 ≠ 0 then
    match W (addr - addr % 8) with
    | none => []
    | some w =>
      (w.drop (addr % 8)).take (min (8 - addr % 8) bytes) ++
        ptraceBody W (addr + min (8 - addr % 8) bytes) (bytes - min (8 - addr % 8) bytes)
  else ptraceBody W addr bytes

/-- `strnlen(buffer, size)` as called at src/Memory.cpp:178, over exactly
the `size` bytes read into the buffer (modelled as the list `l`): the
index of the first zero byte, or the byte count when there is none. -/
def strnlen : List Nat → Nat
  | [] => 0
  | b :: rest => if b = 0 then 0 else strnlen rest + 1

/-- `Memory::ReadFully` (src/Memory.cpp:162) over an arbitrary `Read`
implementation `R`: succeeds exactly when `Read` returns the full
requested count, yielding the bytes read. -/
def Memory.ReadFully (R : Nat → Nat → List Nat) (addr size : Nat) : Option (List Nat) :=
  if (R addr size).length = size then some (R addr size) else none

/-- The scan loop of `Memory::ReadString` (src/Memory.cpp:170), for an
arbitrary `Read` implementation `R`.  Each iteration reads a chunk of
`min(256, max_read - offset)` bytes at `addr + offset`; a zero-byte read
fails; a terminator inside the chunk either returns the chunk prefix
(when this was the first chunk) or re-reads the whole string through
`ReadFully`; otherwise the loop advances by the bytes actually read.
The C `for` loop terminates because `offset` strictly increases; the
`fuel` argument (instantiated with `max_read + 1`, an upper bound on the
iteration count) makes that explicit. -/
def Memory.ReadStringLoop (R : Nat → Nat → List Nat) (addr maxRead : Nat) :
    Nat → Nat → Option (List Nat)
  | 0, _ => none
  | fuel + 1, offset =>
    if offset < maxRead then
      if (R (addr + offset) (min 256 (maxRead - offset))).length = 0 then none
      else
        if strnlen (R (addr + offset) (min 256 (maxRead - offset))) <
            (R (addr + offset) (min 256 (maxRead - offset))).length then
          if offset = 0 then
            some ((R (addr + offset) (min 256 (maxRead - offset))).take
              (strnlen (R (addr + offset) (min 256 (maxRead - offset)))))
          else
            Memory.ReadFully R addr
              (offset + strnlen (R (addr + offset) (min 256 (maxRead - offset))))
        else
          Memory.ReadStringLoop R addr maxRead fuel
            (offset + (R (addr + offset) (min 256 (maxRead - offset))).length)
    else none

/-- `Memory::ReadString` (src/Memory.cpp:167): `some s` models a `true`
return with `*dst = s`; `none` models `false`. -/
def Memory.ReadString (R : Nat → Nat → List Nat) (addr maxRead : Nat) : Option (List Nat) :=
  Memory.ReadStringLoop R addr maxRead (maxRead + 1) 0

/-- A memory whose reads always succeed in full, returning the bytes of
the content function `f` at consecutive addresses.  This realises the
claims' notion of "a memory whose content at `addr` is ..." for the
`ReadString` statements. -/
def fullRead (f : Nat → Nat) : Nat → Nat → List Nat
  | _, 0 => []
  | a, n + 1 => f a :: fullRead f (a + 1) n

/-- The state of a `MemoryRange` object (src/Memory.cpp:357): the
underlying memory's `Read` implementation plus the constructor arguments
`begin_`, `length_`, `offset_`. -/
structure RangeMem where
  memory_ : Nat → Nat → List Nat
  begin_ : Nat
  length_ : Nat
  offset_ : Nat

/-- `MemoryRange::Read` (src/Memory.cpp:361): reject `addr` below the
logical offset or with `read_offset = addr - offset_` at or beyond
`length_`; clamp the size to `length_ - read_offset`; compute
`read_addr = read_offset + begin_` with a `uint64_t` overflow check
(returning 0 bytes on overflow); delegate to the underlying memory. -/
def MemoryRange.Read (r : RangeMem) (addr size : Nat) : List Nat :=
  if addr < r.offset_ then []
  else if r.length_ ≤ addr - r.offset_ then []
  else if 2 ^ 64 ≤ (addr - r.offset_) + r.begin_ then []
  else r.memory_ ((addr - r.offset_) + r.begin_) (min size (r.length_ - (addr - r.offset_)))

/-- `std::map<uint64_t, MemoryRange*>::emplace` on the ordered key list
`maps_`: insert in ascending key order; `emplace` does not replace an
existing key. -/
def mapsEmplace (key : Nat) (r : RangeMem) : List (Nat × RangeMem) → List (Nat × RangeMem)
  | [] => [(key, r)]
  | (k, e) :: rest =>
    if key < k then (key, r) :: (k, e) :: rest
    else if key = k then (k, e) :: rest
    else (k, e) :: mapsEmplace key r rest

/-- `MemoryRanges::Insert` (src/Memory.cpp:380): the key is
`offset() + length()`, clamped to `UINT64_MAX` when the
`__builtin_add_overflow` check fires. -/
def MemoryRanges.Insert (maps : List (Nat × RangeMem)) (r : RangeMem) : List (Nat × RangeMem) :=
  mapsEmplace
    (if 2 ^ 64 ≤ r.offset_ + r.length_ then 2 ^ 64 - 1 else r.offset_ + r.length_) r maps

/-- `std::map::upper_bound(addr)` on the sorted key list: the first entry
whose key is strictly greater than `addr`. -/
def mapsUpperBound (addr : Nat) : List (Nat × RangeMem) → Option RangeMem
  | [] => none
  | (k, e) :: rest => if addr < k then some e else mapsUpperBound addr rest

/-- `MemoryRanges::Read` (src/Memory.cpp:392): delegate to the
`upper_bound` entry when one exists, else return 0 bytes. -/
def MemoryRanges.Read (maps : List (Nat × RangeMem)) (addr size : Nat) : List Nat :=
  match mapsUpperBound addr maps with
  | some r => MemoryRange.Read r addr size
  | none => []

/-- The native-endian `uint64_t` read of the first 8 bytes of the
snapshot file (src/Memory.cpp:408), little-endian as on every supported
Android target. -/
def leU64 (l : List Nat) : Nat := l.foldr (fun b acc => b + 256 * acc) 0

/-- `MemoryOffline::Init` (src/Memory.cpp:400) over the snapshot file's
bytes (the mapped `MemoryFileAtOffset` window at offset 0): read the
leading 8-byte start address via `ReadFully`; subtract the header size
from the file size with an underflow check; wrap the rest as a
`MemoryRange` with `begin_ = 8`, `length_ = size - 8`,
`offset_ = start`.  `none` models `Init` returning `false`. -/
def MemoryOffline.Init (fileData : List Nat) : Option RangeMem :=
  match Memory.ReadFully (MemoryFileAtOffset.Read fileData) 0 8 with
  | none => none
  | some hdr =>
    if fileData.length < 8 then none
    else some ⟨MemoryFileAtOffset.Read fileData, 8, fileData.length - 8, leU64 hdr⟩

/-- `MemoryOffline::Read` (src/Memory.cpp:421): 0 bytes when `Init` has
not succeeded, else delegate to the wrapped `MemoryRange`. -/
def MemoryOffline.Read (m : Option RangeMem) (addr size : Nat) : List Nat :=
  match m with
  | none => []
  | some r => MemoryRange.Read r addr size

/-- Lookup in the page cache `CacheDataType` (an unordered map from page
index to page bytes), modelled as an association list. -/
def cacheFind (cache : List (Nat × List Nat)) (page : Nat) : Option (List Nat) :=
  (cache.find? (fun e => e.1 == page)).map (fun e => e.2)

/-- `cache->erase(addr_page)` (src/Memory.cpp:481): remove the entry for
the page index. -/
def cacheErase (cache : List (Nat × List Nat)) (page : Nat) : List (Nat × List Nat) :=
  cache.filter (fun e => ! (e.1 == page))

/-- The tail of `MemoryCacheBase::InternalCachedRead` from
src/Memory.cpp:485 on, entered once the first page's bytes `cacheDst`
are at hand (and the cache updated to `cache`): serve the request from
the page when it fits in `max_read = ((addr_page + 1) << kCacheBits) -
addr`; otherwise copy the `max_read`-byte page tail, then fetch or fill
the next page, falling back to `impl_->Read(addr_page << kCacheBits,
dst, size - max_read)` and erasing the just-inserted slot when its fill
fails.  `kCacheBits` is left abstract as `bits`; the wrapped memory
`impl_` is the read function `R`. -/
def MemoryCacheBase.cachedSecond (bits : Nat) (R : Nat → Nat → List Nat)
    (cache : List (Nat × List Nat)) (addr size addrPage : Nat) (cacheDst : List Nat) :
    List Nat × List (Nat × List Nat) :=
  if size ≤ (addrPage + 1) * 2 ^ bits - addr then
    ((cacheDst.drop (addr % 2 ^ bits)).take size, cache)
  else
    match cacheFind cache (addrPage + 1) with
    | some cacheDst2 =>
      ((cacheDst.drop (addr % 2 ^ bits)).take ((addrPage + 1) * 2 ^ bits - addr) ++
        cacheDst2.take (size - ((addrPage + 1) * 2 ^ bits - addr)), cache)
    | none =>
      if (R ((addrPage + 1) * 2 ^ bits) (2 ^ bits)).length = 2 ^ bits then
        ((cacheDst.drop (addr % 2 ^ bits)).take ((addrPage + 1) * 2 ^ bits - addr) ++
          (R ((addrPage + 1) * 2 ^ bits) (2 ^ bits)).take
            (size - ((addrPage + 1) * 2 ^ bits - addr)),
          (addrPage + 1, R ((addrPage + 1) * 2 ^ bits) (2 ^ bits)) :: cache)
      else
        ((cacheDst.drop (addr % 2 ^ bits)).take ((addrPage + 1) * 2 ^ bits - addr) ++
          R ((addrPage + 1) * 2 ^ bits) (size - ((addrPage + 1) * 2 ^ bits - addr)),
          cacheErase ((addrPage + 1, List.replicate (2 ^ bits) 0) :: cache) (addrPage + 1))

/-- `MemoryCacheBase::InternalCachedRead` (src/Memory.cpp:470).  The
`(*cache)[addr_page]` slot insertion followed by an in-place
`ReadFully` page fill is modelled by inserting the filled page on
success, and by inserting the default (zero) page and then erasing it
(src/Memory.cpp:481) on failure, after which the call degrades to
`impl_->Read(addr, dst, size)`. -/
def MemoryCacheBase.InternalCachedRead (bits : Nat) (R : Nat → Nat → List Nat)
    (cache : List (Nat × List Nat)) (addr size : Nat) : List Nat × List (Nat × List Nat) :=
  match cacheFind cache (addr / 2 ^ bits) with
  | some cacheDst => MemoryCacheBase.cachedSecond bits R cache addr size (addr / 2 ^ bits) cacheDst
  | none =>
    if (R (addr / 2 ^ bits * 2 ^ bits) (2 ^ bits)).length = 2 ^ bits then
      MemoryCacheBase.cachedSecond bits R
        ((addr / 2 ^ bits, R (addr / 2 ^ bits * 2 ^ bits) (2 ^ bits)) :: cache)
        addr size (addr / 2 ^ bits) (R (addr / 2 ^ bits * 2 ^ bits) (2 ^ bits))
    else
      (R addr size, cacheErase ((addr / 2 ^ bits, List.replicate (2 ^ bits) 0) :: cache)
        (addr / 2 ^ bits))

/-- The two read strategies a `MemoryRemote` object can pin in
`read_redirect_func_` (src/Memory.cpp:324): the `process_vm_readv` bulk
path and the ptrace word-at-a-time path. -/
inductive ReadRedirect where
  | processVmRead : ReadRedirect
  | ptraceRead : ReadRedirect
deriving DecidableEq, Repr

/-- One call of `MemoryRemote::Read` (src/Memory.cpp:316) on LP64.  The
byte counts the two OS paths would deliver on this call are environment
state, passed in as `vmBytes` and `ptBytes`; the function returns the
bytes handed to the caller, the new `read_redirect_func_` state, and
the list of paths actually invoked, in order. -/
def MemoryRemote.Read (st : Option ReadRedirect) (vmBytes ptBytes : List Nat) :
    List Nat × Option ReadRedirect × List ReadRedirect :=
  match st with
  | some ReadRedirect.processVmRead =>
    (vmBytes, some ReadRedirect.processVmRead, [ReadRedirect.processVmRead])
  | some ReadRedirect.ptraceRead =>
    (ptBytes, some ReadRedirect.ptraceRead, [ReadRedirect.ptraceRead])
  | none =>
    if vmBytes.length ≠ 0 then
      (vmBytes, some ReadRedirect.processVmRead, [ReadRedirect.processVmRead])
    else if ptBytes.length ≠ 0 then
      (ptBytes, some ReadRedirect.ptraceRead,
        [ReadRedirect.processVmRead, ReadRedirect.ptraceRead])
    else (([] : List Nat), none, [ReadRedirect.processVmRead, ReadRedirect.ptraceRead])

/-- A sequence of `MemoryRemote::Read` calls on one object, threading the
`read_redirect_func_` state: for each call the environment supplies the
pair (bulk-path bytes, ptrace-path bytes); the trace records each call's
returned bytes and invoked paths, with the final state alongside. -/
def MemoryRemote.ReadSeq (st : Option ReadRedirect) :
    List (List Nat × List Nat) → List (List Nat × List ReadRedirect) × Option ReadRedirect
  | [] => ([], st)
  | c :: rest =>
    (((MemoryRemote.Read st c.1 c.2).1, (MemoryRemote.Read st c.1 c.2).2.2) ::
        (MemoryRemote.ReadSeq (MemoryRemote.Read st c.1 c.2).2.1 rest).1,
      (MemoryRemote.ReadSeq (MemoryRemote.Read st c.1 c.2).2.1 rest).2)

/-- `MemoryLocal::Read` (src/Memory.cpp:347): the `ProcessVmRead` bulk
syscall's byte count is environment state (`vmBytes`); when it is zero
and the request is non-empty, the direct `memcpy` fallback runs and the
call reports exactly `size`. -/
def MemoryLocal.Read (vmBytes size : Nat) : Nat :=
  if vmBytes = 0 ∧ size ≠ 0 then size else vmBytes

/-- Content function for the `ReadString` counterexample and witness: the
byte string "A" terminated by a zero at address 1. -/
def cexStr : Nat → Nat := fun i => if i = 1 then 0 else 65

/-- First range of the `ReadString` short-chunk counterexample: a
`MemoryRange` serving `[0, 3)` with bytes `[1, 1, 1]`. -/
def cexRange1 : RangeMem := ⟨MemoryBuffer.Read [1, 1, 1], 0, 3, 0⟩

/-- Second range of the `ReadString` short-chunk counterexample: a
`MemoryRange` serving `[3, 4)` with the single byte `0`. -/
def cexRange2 : RangeMem := ⟨MemoryBuffer.Read [0], 0, 1, 3⟩

/-- The `MemoryRanges` set holding the two counterexample ranges. -/
def cexMaps : List (Nat × RangeMem) :=
  MemoryRanges.Insert (MemoryRanges.Insert [] cexRange1) cexRange2

end unwindstack

namespace unwindstack

/-- C1: for a buffer-backed or file-backed memory of total size `N`,
`Read(addr, dst, size)` returns `min(size, N - addr)` bytes when
`addr < N` and `0` bytes when `addr ≥ N`, and each copied byte equals the
source content at `[addr, addr + copied)`. -/
theorem buffer_file_read_bounds (data : List Nat) (addr size : Nat) :
    (addr < data.length →
      (MemoryBuffer.Read data addr size).length = min size (data.length - addr) ∧
      (MemoryFileAtOffset.Read data addr size).length = min size (data.length - addr) ∧
      (∀ i : Nat, i < min size (data.length - addr) →
        (MemoryBuffer.Read data addr size)[i]? = data[addr + i]? ∧
        (MemoryFileAtOffset.Read data addr size)[i]? = data[addr + i]?)) ∧
    (data.length ≤ addr →
      MemoryBuffer.Read data addr size = [] ∧
      MemoryFileAtOffset.Read data addr size = []) := by
  constructor
  · intro h
    have hnot : ¬ data.length ≤ addr := by omega
    have hread : MemoryBuffer.Read data addr size =
        (data.drop addr).take (min (data.length - addr) size) := by
      simp [MemoryBuffer.Read, hnot]
    have hread' : MemoryFileAtOffset.Read data addr size =
        (data.drop addr).take (min (data.length - addr) size) := by
      simp [MemoryFileAtOffset.Read, hnot]
    have hlen : ((data.drop addr).take (min (data.length - addr) size)).length =
        min size (data.length - addr) := by
      simp [List.length_take, List.length_drop]
      omega
    have hget : ∀ i : Nat, i < min size (data.length - addr) →
        ((data.drop addr).take (min (data.length - addr) size))[i]? = data[addr + i]? := by
      intro i hi
      rw [List.getElem?_take, List.getElem?_drop]
      rw [if_pos (by omega)]
    refine ⟨by rw [hread]; exact hlen, by rw [hread']; exact hlen, ?_⟩
    intro i hi
    exact ⟨by rw [hread]; exact hget i hi, by rw [hread']; exact hget i hi⟩
  · intro h
    constructor
    · simp [MemoryBuffer.Read, h]
    · simp [MemoryFileAtOffset.Read, h]

/-- Witness for C1 at a concrete input: a five-byte buffer read at
address 1 with request 3 returns bytes 1..3, and a read at address 7
returns nothing. -/
theorem buffer_file_read_bounds_witness :
    (MemoryBuffer.Read [10, 11, 12, 13, 14] 1 3).length = min 3 (5 - 1) ∧
    MemoryBuffer.Read [10, 11, 12, 13, 14] 7 2 = [] := by
  refine ⟨((buffer_file_read_bounds [10, 11, 12, 13, 14] 1 3).1 (by decide)).1, ?_⟩
  exact ((buffer_file_read_bounds [10, 11, 12, 13, 14] 7 2).2 (by decide)).1

/-- C2 counterexample: `MemoryBuffer::Read` does not return 0 for every
`(addr, size)` whose sum exceeds the 64-bit range.  On a 16-byte buffer,
`Read(8, dst, 2^64 - 1)` has `addr + size = 2^64 + 7`, which overflows
`uint64_t`, yet the read returns 8 bytes (the in-bounds clamp), not 0. -/
theorem overflow_read_zero_cex :
    2 ^ 64 ≤ 8 + (2 ^ 64 - 1) ∧
    (MemoryBuffer.Read (List.replicate 16 7) 8 (2 ^ 64 - 1)).length = 8 := by
  constructor
  · have h : 1 ≤ 2 ^ 64 := Nat.one_le_two_pow
    omega
  · decide

/-- C2 amended: only `PtraceRead` checks the sum `addr + size` for
64-bit overflow and returns 0 bytes in that case; the buffer-backed and
file-backed `Read` do not inspect that sum at all, but they clamp the
copy to at most `N - addr` bytes taken from inside the source, so no
out-of-range copy is performed either way. -/
theorem overflow_read_amended :
    (∀ W : Nat → Option (List Nat), ∀ addr bytes : Nat,
      2 ^ 64 ≤ addr + bytes → PtraceRead W addr bytes = []) ∧
    (∀ data : List Nat, ∀ addr size : Nat,
      (MemoryBuffer.Read data addr size).length ≤ data.length - addr ∧
      MemoryBuffer.Read data addr size =
        (data.drop addr).take (min (data.length - addr) size) ∧
      MemoryFileAtOffset.Read data addr size =
        (data.drop addr).take (min (data.length - addr) size)) := by
  constructor
  · intro W addr bytes h
    simp only [PtraceRead]
    rw [if_pos h]
  · intro data addr size
    by_cases h : data.length ≤ addr
    · have hdrop : data.drop addr = [] := List.drop_eq_nil_of_le h
      refine ⟨?_, ?_, ?_⟩ <;> simp [MemoryBuffer.Read, MemoryFileAtOffset.Read, h, hdrop]
    · refine ⟨?_, ?_, ?_⟩ <;>
        simp [MemoryBuffer.Read, MemoryFileAtOffset.Read, h, List.length_take,
          List.length_drop]

/-- Witness for C2's amended theorem at concrete inputs: a ptrace read
at the very top of the address space returns no bytes, and a clamped
buffer read stays within bounds. -/
theorem overflow_read_amended_witness :
    PtraceRead (fun _ => none) (2 ^ 64 - 1) 2 = [] ∧
    (MemoryBuffer.Read [1, 2, 3] 1 50).length ≤ 3 - 1 := by
  constructor
  · exact overflow_read_amended.1 (fun _ => none) (2 ^ 64 - 1) 2 (by decide)
  · exact (overflow_read_amended.2 [1, 2, 3] 1 50).1

theorem fullRead_length (f : Nat → Nat) : ∀ a n : Nat, (fullRead f a n).length = n := by
  intro a n
  induction n generalizing a with
  | zero => rfl
  | succ n ih => simp [fullRead, ih]

theorem fullRead_take (f : Nat → Nat) : ∀ n a k : Nat,
    (fullRead f a n).take k = fullRead f a (min k n) := by
  intro n
  induction n with
  | zero => intro a k; simp [fullRead]
  | succ n ih =>
    intro a k
    cases k with
    | zero => simp [fullRead]
    | succ k => simp [fullRead, Nat.succ_min_succ, ih]

theorem strnlen_all_ne (f : Nat → Nat) : ∀ n a : Nat, (∀ i, i < n → f (a + i) ≠ 0) →
    strnlen (fullRead f a n) = n := by
  intro n
  induction n with
  | zero => intro a _; rfl
  | succ n ih =>
    intro a h
    have h0 : f a ≠ 0 := by
      have := h 0 (Nat.succ_pos n)
      simpa using this
    have hrest : ∀ i, i < n → f (a + 1 + i) ≠ 0 := by
      intro i hi
      have := h (i + 1) (by omega)
      rwa [show a + (i + 1) = a + 1 + i by omega] at this
    simp [fullRead, strnlen, h0, ih (a + 1) hrest]

theorem strnlen_first_zero (f : Nat → Nat) : ∀ k n a : Nat, k < n →
    (∀ i, i < k → f (a + i) ≠ 0) → f (a + k) = 0 →
    strnlen (fullRead f a n) = k := by
  intro k
  induction k with
  | zero =>
    intro n a hk hnz hz
    cases n with
    | zero => omega
    | succ n =>
      have hz' : f a = 0 := by simpa using hz
      simp [fullRead, strnlen, hz']
  | succ k ih =>
    intro n a hk hnz hz
    cases n with
    | zero => omega
    | succ n =>
      have h0 : f a ≠ 0 := by
        have := hnz 0 (by omega)
        simpa using this
      have hnz' : ∀ i, i < k → f (a + 1 + i) ≠ 0 := by
        intro i hi
        have := hnz (i + 1) (by omega)
        rwa [show a + (i + 1) = a + 1 + i by omega] at this
      have hz' : f (a + 1 + k) = 0 := by
        rwa [show a + (k + 1) = a + 1 + k by omega] at hz
      simp [fullRead, strnlen, h0, ih n (a + 1) (by omega) hnz' hz']

theorem readStringLoop_finds (f : Nat → Nat) (addr maxRead L : Nat)
    (hL : L < maxRead) (hnz : ∀ i, i < L → f (addr + i) ≠ 0) (hz : f (addr + L) = 0) :
    ∀ fuel offset : Nat, offset ≤ L → maxRead - offset < fuel →
      Memory.ReadStringLoop (fullRead f) addr maxRead fuel offset =
        some (fullRead f addr L) := by
  intro fuel
  induction fuel with
  | zero => intro offset h1 h2; omega
  | succ n ih =>
    intro offset hoff hfuel
    have hlt : offset < maxRead := by omega
    rw [Memory.ReadStringLoop, if_pos hlt]
    simp only [fullRead_length]
    rw [if_neg (by omega : ¬ (min 256 (maxRead - offset) = 0))]
    by_cases hcase : L < offset + min 256 (maxRead - offset)
    · have hsl : strnlen (fullRead f (addr + offset) (min 256 (maxRead - offset))) =
          L - offset := by
        apply strnlen_first_zero
        · omega
        · intro i hi
          have := hnz (offset + i) (by omega)
          rwa [show addr + (offset + i) = addr + offset + i by omega] at this
        · rwa [show addr + offset + (L - offset) = addr + L by omega]
      rw [hsl, if_pos (by omega)]
      by_cases hoz : offset = 0
      · subst hoz
        rw [if_pos rfl, fullRead_take]
        have hmin : min (L - 0) (min 256 (maxRead - 0)) = L := by omega
        rw [hmin]
        simp
      · rw [if_neg hoz]
        rw [Memory.ReadFully, show offset + (L - offset) = L by omega, fullRead_length]
        rw [if_pos rfl]
    · have hsl : strnlen (fullRead f (addr + offset) (min 256 (maxRead - offset))) =
          min 256 (maxRead - offset) := by
        apply strnlen_all_ne
        intro i hi
        have := hnz (offset + i) (by omega)
        rwa [show addr + (offset + i) = addr + offset + i by omega] at this
      rw [hsl, if_neg (lt_irrefl _)]
      exact ih (offset + min 256 (maxRead - offset)) (by omega) (by omega)

theorem readStringLoop_noterm (f : Nat → Nat) (addr maxRead : Nat)
    (h : ∀ i, i < maxRead → f (addr + i) ≠ 0) :
    ∀ fuel offset : Nat,
      Memory.ReadStringLoop (fullRead f) addr maxRead fuel offset = none := by
  intro fuel
  induction fuel with
  | zero => intro offset; rfl
  | succ n ih =>
    intro offset
    by_cases hlt : offset < maxRead
    · rw [Memory.ReadStringLoop, if_pos hlt]
      simp only [fullRead_length]
      rw [if_neg (by omega : ¬ (min 256 (maxRead - offset) = 0))]
      have hsl : strnlen (fullRead f (addr + offset) (min 256 (maxRead - offset))) =
          min 256 (maxRead - offset) := by
        apply strnlen_all_ne
        intro i hi
        have := h (offset + i) (by omega)
        rwa [show addr + (offset + i) = addr + offset + i by omega] at this
      rw [hsl, if_neg (lt_irrefl _)]
      exact ih (offset + min 256 (maxRead - offset))
    · rw [Memory.ReadStringLoop, if_neg hlt]

/-- C3 counterexample: the claim's bound `L ≤ max_read` is too weak at
`L = max_read`.  The content at address 0 is the single nonzero byte 65
followed by a zero terminator at address 1 (`L = 1`); with
`max_read = 1` the claim asserts a `true` return, but `ReadString` scans
only the first `max_read = 1` bytes, never sees the terminator, and
returns `false`. -/
theorem readString_maxread_cex :
    (1 : Nat) ≤ 1 ∧ cexStr (0 + 1) = 0 ∧ (∀ i, i < 1 → cexStr (0 + i) ≠ 0) ∧
    Memory.ReadString (fullRead cexStr) 0 1 = none := by decide

/-- C3 amended: for a memory whose reads return its content in full,
with a zero-terminated sequence of length `L < max_read` at `addr`
(strictly less, since the terminator itself must lie within the scanned
`max_read` bytes), `ReadString` returns `true` with exactly the `L`
bytes preceding the terminator; when no zero byte lies within the first
`max_read` bytes it returns `false`. -/
theorem readString_terminated_spec :
    (∀ f : Nat → Nat, ∀ addr L maxRead : Nat,
      L < maxRead → (∀ i, i < L → f (addr + i) ≠ 0) → f (addr + L) = 0 →
      Memory.ReadString (fullRead f) addr maxRead = some (fullRead f addr L)) ∧
    (∀ f : Nat → Nat, ∀ addr maxRead : Nat,
      (∀ i, i < maxRead → f (addr + i) ≠ 0) →
      Memory.ReadString (fullRead f) addr maxRead = none) := by
  constructor
  · intro f addr L maxRead hL hnz hz
    exact readStringLoop_finds f addr maxRead L hL hnz hz (maxRead + 1) 0
      (Nat.zero_le L) (by omega)
  · intro f addr maxRead h
    exact readStringLoop_noterm f addr maxRead h (maxRead + 1) 0

/-- Witness for C3's amended theorem: the terminated string at address 0
of length 1 is found with `max_read = 3`, and all-nonzero content makes
the scan fail. -/
theorem readString_terminated_spec_witness :
    Memory.ReadString (fullRead cexStr) 0 3 = some (fullRead cexStr 0 1) ∧
    Memory.ReadString (fullRead (fun _ => 65)) 0 3 = none := by
  constructor
  · exact readString_terminated_spec.1 cexStr 0 1 3 (by decide) (by decide) (by decide)
  · exact readString_terminated_spec.2 (fun _ => 65) 0 3 (by decide)

/-- C4 counterexample: a chunk read that returns fewer bytes than
requested before a terminator is found does not make `ReadString` fail.
Over a `MemoryRanges` holding `[0,3)` with bytes `[1,1,1]` and `[3,4)`
with byte `0`, the first chunk read requests `min(256, 10) = 10` bytes
but returns only 3 (the first range ends); the scan simply continues,
finds the terminator at address 3 in the next chunk, and returns `true`
with the string `[1,1,1]` where the claim demands `false`. -/
theorem readString_short_chunk_cex :
    (MemoryRanges.Read cexMaps 0 10).length = 3 ∧ (3 : Nat) < 10 ∧
    Memory.ReadString (MemoryRanges.Read cexMaps) 0 10 = some [1, 1, 1] := by decide

/-- C4 amended: `ReadString` returns `false` whenever no terminating zero
byte lies within the first `max_read` bytes of the content, and whenever
a chunk read during the scan returns zero bytes before a terminator has
been found; a short but nonzero chunk read does not by itself cause
failure — the scan continues from the bytes actually read. -/
theorem readString_failure_spec :
    (∀ f : Nat → Nat, ∀ addr maxRead : Nat,
      (∀ i, i < maxRead → f (addr + i) ≠ 0) →
      Memory.ReadString (fullRead f) addr maxRead = none) ∧
    (∀ R : Nat → Nat → List Nat, ∀ addr maxRead fuel offset : Nat,
      offset < maxRead → R (addr + offset) (min 256 (maxRead - offset)) = [] →
      Memory.ReadStringLoop R addr maxRead (fuel + 1) offset = none) := by
  constructor
  · intro f addr maxRead h
    exact readStringLoop_noterm f addr maxRead h (maxRead + 1) 0
  · intro R addr maxRead fuel offset hlt hzero
    rw [Memory.ReadStringLoop, if_pos hlt, hzero]
    simp

/-- Witness for C4's amended theorem: all-nonzero content fails the
scan, and a memory returning no bytes at all fails on the first chunk. -/
theorem readString_failure_spec_witness :
    Memory.ReadString (fullRead (fun _ => 7)) 0 4 = none ∧
    Memory.ReadStringLoop (fun _ _ => []) 0 4 5 0 = none := by
  constructor
  · exact readString_failure_spec.1 (fun _ => 7) 0 4 (by decide)
  · exact readString_failure_spec.2 (fun _ _ => []) 0 4 4 0 (by decide) rfl

/-- C5: for a Range memory with window `(begin, length, offset)`, `Read`
returns 0 bytes for `addr < offset` and for `addr ≥ offset + length`;
inside the window it delegates to the underlying memory at the
translated address `addr - offset + begin` with the size clamped to the
remaining window length `offset + length - addr`, and the translation is
overflow-checked, returning 0 bytes on 64-bit overflow. -/
theorem range_read_spec (m : Nat → Nat → List Nat) (b len off addr size : Nat) :
    (addr < off → MemoryRange.Read ⟨m, b, len, off⟩ addr size = []) ∧
    (off + len ≤ addr → MemoryRange.Read ⟨m, b, len, off⟩ addr size = []) ∧
    (off ≤ addr → addr < off + len → addr - off + b < 2 ^ 64 →
      MemoryRange.Read ⟨m, b, len, off⟩ addr size =
        m (addr - off + b) (min size (off + len - addr))) ∧
    (off ≤ addr → addr < off + len → 2 ^ 64 ≤ addr - off + b →
      MemoryRange.Read ⟨m, b, len, off⟩ addr size = []) := by
  refine ⟨?_, ?_, ?_, ?_⟩
  · intro h
    simp only [MemoryRange.Read]
    rw [if_pos h]
  · intro h
    simp only [MemoryRange.Read]
    by_cases h1 : addr < off
    · rw [if_pos h1]
    · rw [if_neg h1, if_pos (by omega : len ≤ addr - off)]
  · intro h1 h2 h3
    simp only [MemoryRange.Read]
    rw [if_neg (by omega), if_neg (by omega), if_neg (by omega)]
    rw [show len - (addr - off) = off + len - addr by omega]
  · intro h1 h2 h3
    simp only [MemoryRange.Read]
    rw [if_neg (by omega), if_neg (by omega), if_pos h3]

/-- Witness for C5 at concrete inputs: a window `[10, 14)` over a
four-byte buffer rebased by `begin = 2`, hit inside, below, above, and
with a translation that overflows. -/
theorem range_read_spec_witness :
    MemoryRange.Read ⟨MemoryBuffer.Read [1, 2, 3, 4, 5, 6], 2, 4, 10⟩ 11 2 =
      MemoryBuffer.Read [1, 2, 3, 4, 5, 6] 3 (min 2 3) ∧
    MemoryRange.Read ⟨MemoryBuffer.Read [1, 2, 3, 4, 5, 6], 2, 4, 10⟩ 9 2 = [] ∧
    MemoryRange.Read ⟨MemoryBuffer.Read [1, 2, 3, 4, 5, 6], 2, 4, 10⟩ 14 2 = [] ∧
    MemoryRange.Read ⟨MemoryBuffer.Read [1, 2, 3, 4, 5, 6], 2 ^ 64 - 1, 4, 10⟩ 11 2 = [] := by
  refine ⟨?_, ?_, ?_, ?_⟩
  · exact (range_read_spec (MemoryBuffer.Read [1, 2, 3, 4, 5, 6]) 2 4 10 11 2).2.2.1
      (by decide) (by decide) (by decide)
  · exact (range_read_spec (MemoryBuffer.Read [1, 2, 3, 4, 5, 6]) 2 4 10 9 2).1 (by decide)
  · exact (range_read_spec (MemoryBuffer.Read [1, 2, 3, 4, 5, 6]) 2 4 10 14 2).2.1 (by decide)
  · exact (range_read_spec (MemoryBuffer.Read [1, 2, 3, 4, 5, 6]) (2 ^ 64 - 1) 4 10 11 2).2.2.2
      (by decide) (by decide) (by decide)

/-- C6: an inserted range is keyed by its upper bound
`offset + length`, saturated to `UINT64_MAX` on overflow; with ranges
`[0, 100)` and `[100, 200)` inserted, a read at 150 delegates to the
entry with the smallest key strictly greater than 150 — the second
range, whose underlying memory is read at the translated address — and
a read at 250, beyond every upper bound, returns 0 bytes. -/
theorem ranges_insert_read_spec (R1 R2 : Nat → Nat → List Nat) (b1 b2 size : Nat)
    (hb : 50 + b2 < 2 ^ 64) :
    (∀ r : RangeMem, MemoryRanges.Insert [] r =
      [(min (r.offset_ + r.length_) (2 ^ 64 - 1), r)]) ∧
    MemoryRanges.Read
      (MemoryRanges.Insert (MemoryRanges.Insert [] ⟨R1, b1, 100, 0⟩) ⟨R2, b2, 100, 100⟩)
      150 size = R2 (50 + b2) (min size 50) ∧
    MemoryRanges.Read
      (MemoryRanges.Insert (MemoryRanges.Insert [] ⟨R1, b1, 100, 0⟩) ⟨R2, b2, 100, 100⟩)
      250 size = [] := by
  have hmaps : MemoryRanges.Insert (MemoryRanges.Insert [] ⟨R1, b1, 100, 0⟩)
      ⟨R2, b2, 100, 100⟩ =
      [(100, ⟨R1, b1, 100, 0⟩), (200, ⟨R2, b2, 100, 100⟩)] := by
    norm_num [MemoryRanges.Insert, mapsEmplace]
  refine ⟨?_, ?_, ?_⟩
  · intro r
    simp only [MemoryRanges.Insert, mapsEmplace]
    by_cases h : 2 ^ 64 ≤ r.offset_ + r.length_
    · rw [if_pos h]
      congr 1
      congr 1
      omega
    · rw [if_neg h]
      congr 1
      congr 1
      omega
  · rw [hmaps]
    simp only [MemoryRanges.Read, mapsUpperBound]
    rw [if_neg (by norm_num), if_pos (by norm_num)]
    simp only [MemoryRange.Read]
    rw [if_neg (by norm_num), if_neg (by norm_num), if_neg (by omega)]
  · rw [hmaps]
    simp only [MemoryRanges.Read, mapsUpperBound]
    rw [if_neg (by norm_num), if_neg (by norm_num)]

/-- Witness for C6 at concrete inputs: two three-byte buffers behind the
two ranges, read at 150 and at 250. -/
theorem ranges_insert_read_spec_witness :
    MemoryRanges.Read
      (MemoryRanges.Insert (MemoryRanges.Insert [] ⟨MemoryBuffer.Read [1, 2, 3], 0, 100, 0⟩)
        ⟨MemoryBuffer.Read [4, 5, 6], 0, 100, 100⟩) 250 4 = [] := by
  exact (ranges_insert_read_spec (MemoryBuffer.Read [1, 2, 3]) (MemoryBuffer.Read [4, 5, 6])
    0 0 4 (by decide)).2.2

/-- C7: for an offline snapshot built from a file whose 8-byte header
encodes start address `S` followed by `C` content bytes, after `Init`
succeeds a read at `S + k` with `k < C` returns `min(n, C - k)` bytes
equal to the content bytes from index `k` on (the bytes immediately
after the header), and reads below `S` or at/above `S + C` return 0
bytes. -/
theorem offline_read_spec (hdr content : List Nat) (S k n addr : Nat)
    (hhdr : hdr.length = 8) (hS : leU64 hdr = S) (hC : content.length + 8 < 2 ^ 64) :
    (k < content.length →
      MemoryOffline.Read (MemoryOffline.Init (hdr ++ content)) (S + k) n =
        (content.drop k).take (min n (content.length - k))) ∧
    (addr < S → MemoryOffline.Read (MemoryOffline.Init (hdr ++ content)) addr n = []) ∧
    (S + content.length ≤ addr →
      MemoryOffline.Read (MemoryOffline.Init (hdr ++ content)) addr n = []) := by
  have hlen : (hdr ++ content).length = 8 + content.length := by
    rw [List.length_append, hhdr]
  have hread8 : MemoryFileAtOffset.Read (hdr ++ content) 0 8 = hdr := by
    rw [MemoryFileAtOffset.Read, if_neg (by omega)]
    rw [List.drop_zero, Nat.sub_zero, hlen]
    rw [show min (8 + content.length) 8 = 8 by omega]
    rw [← hhdr, List.take_left]
  have hRF : Memory.ReadFully (MemoryFileAtOffset.Read (hdr ++ content)) 0 8 = some hdr := by
    rw [Memory.ReadFully, hread8, hhdr, if_pos rfl]
  have hinit : MemoryOffline.Init (hdr ++ content) =
      some ⟨MemoryFileAtOffset.Read (hdr ++ content), 8, content.length, S⟩ := by
    rw [MemoryOffline.Init, hRF]
    have h8 : ¬ (hdr ++ content).length < 8 := by omega
    simp only [h8, if_false]
    rw [show (hdr ++ content).length - 8 = content.length by omega, hS]
  rw [hinit]
  simp only [MemoryOffline.Read]
  refine ⟨?_, ?_, ?_⟩
  · intro hk
    simp only [MemoryRange.Read]
    rw [if_neg (by omega), if_neg (by omega), if_neg (by omega)]
    rw [show S + k - S = k by omega]
    rw [MemoryFileAtOffset.Read, if_neg (by omega)]
    have hdrop : (hdr ++ content).drop (k + 8) = content.drop k := by
      rw [show k + 8 = 8 + k by omega, ← List.drop_drop, ← hhdr, List.drop_left]
    rw [hdrop]
    rw [show min ((hdr ++ content).length - (k + 8)) (min n (content.length - k)) =
      min n (content.length - k) by omega]
  · intro h
    simp only [MemoryRange.Read]
    rw [if_pos h]
  · intro h
    simp only [MemoryRange.Read]
    rw [if_neg (by omega), if_pos (by omega)]

/-- Witness for C7 at a concrete input: a snapshot whose header encodes
start address 4096 with three content bytes, read inside at 4097, below
at 100, and above at 8192. -/
theorem offline_read_spec_witness :
    MemoryOffline.Read (MemoryOffline.Init ([0, 16, 0, 0, 0, 0, 0, 0] ++ [21, 22, 23]))
      (4096 + 1) 2 = (([21, 22, 23] : List Nat).drop 1).take (min 2 2) ∧
    MemoryOffline.Read (MemoryOffline.Init ([0, 16, 0, 0, 0, 0, 0, 0] ++ [21, 22, 23]))
      100 2 = [] ∧
    MemoryOffline.Read (MemoryOffline.Init ([0, 16, 0, 0, 0, 0, 0, 0] ++ [21, 22, 23]))
      8192 2 = [] := by
  refine ⟨?_, ?_, ?_⟩
  · exact (offline_read_spec [0, 16, 0, 0, 0, 0, 0, 0] [21, 22, 23] 4096 1 2 0
      (by decide) (by decide) (by decide)).1 (by decide)
  · exact (offline_read_spec [0, 16, 0, 0, 0, 0, 0, 0] [21, 22, 23] 4096 0 2 100
      (by decide) (by decide) (by decide)).2.1 (by decide)
  · exact (offline_read_spec [0, 16, 0, 0, 0, 0, 0, 0] [21, 22, 23] 4096 0 2 8192
      (by decide) (by decide) (by decide)).2.2 (by decide)

theorem cacheErase_insert_self (cache : List (Nat × List Nat)) (p : Nat) (z : List Nat)
    (h : cacheFind cache p = none) : cacheErase ((p, z) :: cache) p = cache := by
  have hfind : cache.find? (fun e => e.1 == p) = none := by
    rw [cacheFind] at h
    exact Option.map_eq_none'.mp h
  have hall := List.find?_eq_none.mp hfind
  rw [cacheErase, List.filter_cons]
  simp only [beq_self_eq_true, Bool.not_true, Bool.false_eq_true, if_false]
  apply List.filter_eq_self.mpr
  intro a ha
  have := hall a ha
  simpa using this

/-- C8: when a full-page fill from the wrapped source fails, the
just-inserted page slot is erased from the cache (the final cache equals
the incoming one, so no partial or stale entry is visible and every
other page is preserved), and the call falls back to an uncached direct
read of exactly the originally requested bytes from the wrapped source;
the same holds for the second page when the request spans two pages. -/
theorem cache_fill_failure_spec (bits : Nat) (R : Nat → Nat → List Nat)
    (cache : List (Nat × List Nat)) (addr size : Nat) :
    (cacheFind cache (addr / 2 ^ bits) = none →
      (R (addr / 2 ^ bits * 2 ^ bits) (2 ^ bits)).length ≠ 2 ^ bits →
      MemoryCacheBase.InternalCachedRead bits R cache addr size = (R addr size, cache)) ∧
    (∀ pg : List Nat, cacheFind cache (addr / 2 ^ bits) = some pg →
      (addr / 2 ^ bits + 1) * 2 ^ bits - addr < size →
      cacheFind cache (addr / 2 ^ bits + 1) = none →
      (R ((addr / 2 ^ bits + 1) * 2 ^ bits) (2 ^ bits)).length ≠ 2 ^ bits →
      MemoryCacheBase.InternalCachedRead bits R cache addr size =
        ((pg.drop (addr % 2 ^ bits)).take ((addr / 2 ^ bits + 1) * 2 ^ bits - addr) ++
          R ((addr / 2 ^ bits + 1) * 2 ^ bits)
            (size - ((addr / 2 ^ bits + 1) * 2 ^ bits - addr)), cache)) := by
  constructor
  · intro hnone hfail
    simp only [MemoryCacheBase.InternalCachedRead, hnone]
    rw [if_neg hfail]
    rw [cacheErase_insert_self cache _ _ hnone]
  · intro pg hsome hspan hnone2 hfail2
    simp only [MemoryCacheBase.InternalCachedRead, hsome]
    simp only [MemoryCacheBase.cachedSecond, hnone2]
    rw [if_neg (by omega)]
    rw [if_neg hfail2]
    rw [cacheErase_insert_self cache _ _ hnone2]

/-- Witness for C8 at concrete inputs with a 4-byte page size
(`bits = 2`) and a source that can serve at most 2 bytes per call, so
every full-page fill fails: an uncached single-page read at address 5,
and a two-page spanning read at address 6 with page 1 already cached. -/
theorem cache_fill_failure_spec_witness :
    MemoryCacheBase.InternalCachedRead 2 (fun _ n => List.replicate (min n 2) 9) [] 5 2 =
      ((fun _ n => List.replicate (min n 2) 9) 5 2, []) ∧
    MemoryCacheBase.InternalCachedRead 2 (fun _ n => List.replicate (min n 2) 9)
      [(1, [5, 6, 7, 8])] 6 4 =
      ((([5, 6, 7, 8] : List Nat).drop (6 % 2 ^ 2)).take ((6 / 2 ^ 2 + 1) * 2 ^ 2 - 6) ++
        (fun _ n => List.replicate (min n 2) 9) ((6 / 2 ^ 2 + 1) * 2 ^ 2)
          (4 - ((6 / 2 ^ 2 + 1) * 2 ^ 2 - 6)), [(1, [5, 6, 7, 8])]) := by
  constructor
  · exact (cache_fill_failure_spec 2 (fun _ n => List.replicate (min n 2) 9) [] 5 2).1
      rfl (by decide)
  · exact (cache_fill_failure_spec 2 (fun _ n => List.replicate (min n 2) 9)
      [(1, [5, 6, 7, 8])] 6 4).2 [5, 6, 7, 8] rfl (by decide) rfl (by decide)

theorem readSeq_pinned_pt (rest : List (List Nat × List Nat)) :
    MemoryRemote.ReadSeq (some ReadRedirect.ptraceRead) rest =
      (rest.map (fun c => (c.2, [ReadRedirect.ptraceRead])),
        some ReadRedirect.ptraceRead) := by
  induction rest with
  | nil => rfl
  | cons c rest ih => simp [MemoryRemote.ReadSeq, MemoryRemote.Read, ih]

theorem readSeq_pinned_vm (rest : List (List Nat × List Nat)) :
    MemoryRemote.ReadSeq (some ReadRedirect.processVmRead) rest =
      (rest.map (fun c => (c.1, [ReadRedirect.processVmRead])),
        some ReadRedirect.processVmRead) := by
  induction rest with
  | nil => rfl
  | cons c rest ih => simp [MemoryRemote.ReadSeq, MemoryRemote.Read, ih]

/-- C9: the first `Read` on a remote-memory object tries the bulk
`process_vm_readv` path; the ptrace fallback runs only when the bulk
path yields zero bytes; whichever path first returns non-zero bytes is
recorded in `read_redirect_func_`, and every later `Read` on the object
invokes only the recorded path (once the fallback is pinned, the bulk
path is never retried, and symmetrically). -/
theorem remote_sticky_spec (b p : List Nat) (rest : List (List Nat × List Nat)) :
    (b = [] → p ≠ [] →
      MemoryRemote.ReadSeq none ((b, p) :: rest) =
        ((p, [ReadRedirect.processVmRead, ReadRedirect.ptraceRead]) ::
          rest.map (fun c => (c.2, [ReadRedirect.ptraceRead])),
          some ReadRedirect.ptraceRead)) ∧
    (b ≠ [] →
      MemoryRemote.ReadSeq none ((b, p) :: rest) =
        ((b, [ReadRedirect.processVmRead]) ::
          rest.map (fun c => (c.1, [ReadRedirect.processVmRead])),
          some ReadRedirect.processVmRead)) := by
  constructor
  · intro hb hp
    subst hb
    have hstep : MemoryRemote.Read none [] p =
        (p, some ReadRedirect.ptraceRead,
          [ReadRedirect.processVmRead, ReadRedirect.ptraceRead]) := by
      simp [MemoryRemote.Read, hp]
    simp [MemoryRemote.ReadSeq, hstep, readSeq_pinned_pt]
  · intro hb
    have hstep : MemoryRemote.Read none b p =
        (b, some ReadRedirect.processVmRead, [ReadRedirect.processVmRead]) := by
      simp [MemoryRemote.Read, hb]
    simp [MemoryRemote.ReadSeq, hstep, readSeq_pinned_vm]

/-- Witness for C9 at a concrete trace: the bulk path yields nothing on
the first call, the fallback yields one byte, and the second call goes
straight to the pinned fallback. -/
theorem remote_sticky_spec_witness :
    MemoryRemote.ReadSeq none (([], [9]) :: [([], [8])]) =
      (([9], [ReadRedirect.processVmRead, ReadRedirect.ptraceRead]) ::
        [(([] : List Nat), ([8] : List Nat))].map (fun c => (c.2, [ReadRedirect.ptraceRead])),
        some ReadRedirect.ptraceRead) :=
  (remote_sticky_spec [] [9] [([], [8])]).1 rfl (by decide)

/-- C10: for a local-process memory and `size > 0`, `Read` never returns
0: when the bulk syscall transfers zero bytes the direct in-process copy
fallback reports exactly `size`, so a zero or short return can only be a
partial bulk-syscall transfer, never the fallback. -/
theorem local_read_spec (vmBytes size : Nat) (h : 0 < size) :
    (vmBytes = 0 → MemoryLocal.Read vmBytes size = size) ∧
    0 < MemoryLocal.Read vmBytes size ∧
    (MemoryLocal.Read vmBytes size < size → MemoryLocal.Read vmBytes size = vmBytes) := by
  refine ⟨?_, ?_, ?_⟩
  · intro hv
    rw [MemoryLocal.Read, if_pos ⟨hv, by omega⟩]
  · rw [MemoryLocal.Read]
    by_cases hv : vmBytes = 0 ∧ size ≠ 0
    · rw [if_pos hv]
      omega
    · rw [if_neg hv]
      omega
  · intro hlt
    rw [MemoryLocal.Read] at hlt ⊢
    by_cases hv : vmBytes = 0 ∧ size ≠ 0
    · rw [if_pos hv] at hlt
      omega
    · rw [if_neg hv]

/-- Witness for C10 at concrete inputs: a zero-byte bulk transfer falls
back to a full 4-byte report, and a nonzero transfer keeps the call
positive. -/
theorem local_read_spec_witness :
    MemoryLocal.Read 0 4 = 4 ∧ 0 < MemoryLocal.Read 3 4 :=
  ⟨(local_read_spec 0 4 (by decide)).1 rfl, (local_read_spec 3 4 (by decide)).2.1⟩

end unwindstack
